import Mathlib

/-!
Verification development for the Catena memory-hard password-scrambling
framework (Rust sources under `src/`).

Modelling conventions:
* Byte strings (`Vec<u8>`) are `List Nat`, each entry standing for one byte.
* Machine integers are `Nat` with explicit `% 2 ^ w` (or masking) where the
  source relies on a fixed width.
* The five pluggable primitives (`H`, `H'`, `Γ`, `F`, `Φ`) of a Catena
  instance are a record of functions.  Only `H'` may carry mutable state
  (`fn h_prime(&mut self, ...)` in `src/src/catena.rs`), so the state type
  `σ` of the `algorithms` object is threaded explicitly through every
  function that takes `&mut self` in the source; `h` takes `&self` and is
  modelled as a pure function.
* Fallible operations (`panic!` in the source) return `Except String _`.
-/

/-- `helpers::vectors::zero_padding`: concatenate `p` zero bytes to `x`. -/
def zero_padding (x : List Nat) (p : Nat) : List Nat :=
  x ++ List.replicate p 0

/-- `u16::to_le_bytes` from `src/src/bytes.rs`: two little-endian bytes
`[v & 0xff, (v >> 8) & 0xff]`. -/
def le16 (v : Nat) : List Nat :=
  [v &&& 0xff, (v >>> 8) &&& 0xff]

/-- `ByteState::get_word` for `Vec<u8>` (`src/src/bytes.rs`): the slice
`self[index*word_size .. (index+1)*word_size]`. -/
def get_word (v : List Nat) (word_size index : Nat) : List Nat :=
  (v.drop (index * word_size)).take word_size

/-- The possible domains (modes) of Catena (`enum Domain` in
`src/src/catena.rs`). -/
inductive Domain where
  | passwordScrambling : Domain
  | keyDerivation : Domain
  | proofOfWork : Domain
deriving DecidableEq

/-- The byte `d` computed by the `match mode` at the start of
`compute_tweak`. -/
def Domain.encode : Domain → Nat
  | Domain.passwordScrambling => 0
  | Domain.keyDerivation => 1
  | Domain.proofOfWork => 2

/-- The `Algorithms` trait of `src/src/catena.rs`: the variable algorithms
H, H', Γ, F and Φ of a Catena instance.  `σ` is the type of the mutable
state owned by the algorithms object; functions taking `&mut self` in the
source return the updated state. -/
structure Algorithms (σ : Type) where
  /-- `fn h(&self, x: &Vec<u8>) -> Vec<u8>` — pure. -/
  h : List Nat → List Nat
  /-- `fn h_prime(&mut self, x: &Vec<u8>) -> Vec<u8>`. -/
  h_prime : σ → List Nat → σ × List Nat
  /-- `fn reset_h_prime(&mut self)`. -/
  reset_h_prime : σ → σ
  /-- `fn gamma(&mut self, garlic, state, gamma, k) -> Vec<u8>`. -/
  gamma : σ → Nat → List Nat → List Nat → Nat → σ × List Nat
  /-- `fn f(&mut self, garlic, state, lambda, n, k) -> Vec<u8>`. -/
  f : σ → Nat → List Nat → Nat → Nat → Nat → σ × List Nat
  /-- `fn phi(&mut self, garlic, state, mu, k) -> Vec<u8>`. -/
  phi : σ → Nat → List Nat → List Nat → Nat → σ × List Nat

/-- `pub struct Catena<T: Algorithms>` from `src/src/catena.rs`. -/
structure Catena (σ : Type) where
  algorithms : Algorithms σ
  vid : List Nat
  n : Nat
  k : Nat
  g_low : Nat
  g_high : Nat
  lambda : Nat

namespace Catena

variable {σ : Type}

/-- `fn h2`: compute `h(a ‖ b)`. -/
def h2 (c : Catena σ) (a b : List Nat) : List Nat :=
  c.algorithms.h (a ++ b)

/-- `fn h3`: compute `h(a ‖ b ‖ c)`. -/
def h3 (c : Catena σ) (a b d : List Nat) : List Nat :=
  c.algorithms.h (a ++ b ++ d)

/-- `fn h_prime2`: compute `h_prime(a ‖ b)`. -/
def h_prime2 (c : Catena σ) (s : σ) (a b : List Nat) : σ × List Nat :=
  c.algorithms.h_prime s (a ++ b)

/-- `fn compute_tweak`: `H(vid) ‖ [d, λ] ‖ LE16(output_len) ‖
LE16(salt_len) ‖ H(a_data)`. -/
def compute_tweak (c : Catena σ) (mode : Domain) (output_len salt_len : Nat)
    (a_data : List Nat) : List Nat :=
  let d := mode.encode
  let hv := c.algorithms.h c.vid
  let had := c.algorithms.h a_data
  hv ++ [d, c.lambda % 256] ++ le16 output_len ++ le16 salt_len ++ had

/-- `fn h_init`: expand `x` by iterated `H` into a `2k`-byte string `w` and
split it in half. -/
def h_init (c : Catena σ) (x : List Nat) : List Nat × List Nat :=
  let l := 2 * c.k / c.n
  let w := (List.range l).foldl (fun w i => w ++ c.h2 [i % 256] x) []
  (w.take (w.length / 2), w.drop (w.length / 2))

/-- The vertex-generation loop of `flap` (`for i in 2..(g + 2)` in the
source): starting from the two seed words, produce `cnt` words, each
`H'(previous ‖ one before previous)`.  Returns the words `v₀ … v₍cnt₋1₎`,
i.e. the state vector with `v₋₂`, `v₋₁` already dropped. -/
def v_chain (c : Catena σ) : σ → List Nat → List Nat → Nat → σ × List (List Nat)
  | s, _, _, 0 => (s, [])
  | s, wprev, wprev2, cnt + 1 =>
    let sw := c.h_prime2 s wprev wprev2
    let srest := c.v_chain sw.1 sw.2 wprev cnt
    (srest.1, sw.2 :: srest.2)

/-- `fn flap`: the memory-hard core at a fixed garlic. -/
def flap (c : Catena σ) (s : σ) (garlic : Nat) (x : List Nat)
    (gamma : List Nat) : σ × List Nat :=
  let vinit := c.h_init x
  let g := 2 ^ garlic
  let s := c.algorithms.reset_h_prime s
  let schain := c.v_chain s vinit.2 vinit.1 g
  let v := schain.2.flatten
  let s := c.algorithms.reset_h_prime schain.1
  let sv1 := c.algorithms.gamma s garlic v gamma c.k
  let s := c.algorithms.reset_h_prime sv1.1
  let sv2 := c.algorithms.f s garlic sv1.2 c.lambda c.n c.k
  let s := c.algorithms.reset_h_prime sv2.1
  let mu := get_word sv2.2 c.k (g - 1)
  let sv3 := c.algorithms.phi s garlic sv2.2 mu c.k
  (sv3.1, get_word sv3.2 c.k (g - 1))

/-- One iteration of the garlic loop `for g in g_low..g_high + 1` of
`fn catena`.  The loops of `client_independent_update` and `client_prep`
have byte-for-byte the same body in the source (zero-pad to `n` using
`n - output_length`, `flap`, `H(LE1(g) ‖ ·)`, truncate to `m`). -/
def catena_loop_step (c : Catena σ) (m : Nat) (gamma : List Nat)
    (sx : σ × List Nat) (g : Nat) : σ × List Nat :=
  let x := if sx.2.length < c.n then zero_padding sx.2 (c.n - m) else sx.2
  let sfl := c.flap sx.1 g x gamma
  (sfl.1, (c.h2 [g % 256] sfl.2).take m)

/-- `fn catena`: the password-scrambling main iteration. -/
def catena (c : Catena σ) (s : σ) (pwd t salt : List Nat)
    (g_low g_high m : Nat) (gamma : List Nat) : σ × List Nat :=
  let x := c.algorithms.h (t ++ pwd ++ salt)
  let sx := c.flap s ((g_low + 1) / 2) x gamma
  let x := c.algorithms.h sx.2
  (List.range' g_low (g_high + 1 - g_low)).foldl
    (c.catena_loop_step m gamma) (sx.1, x)

/-- `fn hash`: password scrambling mode (domain `PasswordScrambling`). -/
def hash (c : Catena σ) (s : σ) (pwd salt associated_data : List Nat)
    (output_length : Nat) (gamma : List Nat) : σ × List Nat :=
  let tweak := c.compute_tweak Domain.passwordScrambling output_length
    salt.length associated_data
  c.catena s pwd tweak salt c.g_low c.g_high output_length gamma

/-- `fn client_independent_update`: raise the cost parameter of a stored
hash from `old_g_high` to `new_g_high` without the password.  The source
panics when `old_g_high >= new_g_high`; this is modelled as
`Except.error`. -/
def client_independent_update (c : Catena σ) (s : σ) (old_hash : List Nat)
    (old_g_high new_g_high : Nat) (gamma : List Nat) (output_length : Nat) :
    Except String (σ × List Nat) :=
  if old_g_high ≥ new_g_high then
    Except.error "new_g_high has to be bigger than old_g_high"
  else
    Except.ok ((List.range' (old_g_high + 1) (new_g_high - old_g_high)).foldl
      (c.catena_loop_step output_length gamma) (s, old_hash))

/-- `fn client_prep`: the client side of the server-relief split.  Performs
everything of `catena` up to and including the last `flap(g_high)`, but
omits the final `H` and truncation. -/
def client_prep (c : Catena σ) (s : σ) (pwd salt associated_data : List Nat)
    (output_length : Nat) (gamma : List Nat) : σ × List Nat :=
  let tweak := c.compute_tweak Domain.passwordScrambling output_length
    salt.length associated_data
  let x := c.h3 tweak pwd salt
  let sx := c.flap s ((c.g_low + 1) / 2) x gamma
  let x := c.algorithms.h sx.2
  let sx :=
    if c.g_high > c.g_low then
      (List.range' c.g_low (c.g_high - c.g_low)).foldl
        (c.catena_loop_step output_length gamma) (sx.1, x)
    else (sx.1, x)
  let x := if sx.2.length < c.n then
      zero_padding sx.2 (c.n - output_length)
    else sx.2
  c.flap sx.1 c.g_high x gamma

/-- `fn server_final`: the server side of the server-relief split,
`truncate(H(LE1(g_high) ‖ x), m)`. -/
def server_final (c : Catena σ) (client_output : List Nat)
    (output_length : Nat) : List Nat :=
  (c.h2 [c.g_high % 256] client_output).take output_length

end Catena

/-- `u64::to_be_bytes` as implemented in `src/src/bytes.rs` (mask each byte
and shift it down). -/
def u64_to_be_bytes (v : Nat) : List Nat :=
  [(v &&& 0xff00000000000000) >>> 56,
   (v &&& 0x00ff000000000000) >>> 48,
   (v &&& 0x0000ff0000000000) >>> 40,
   (v &&& 0x000000ff00000000) >>> 32,
   (v &&& 0x00000000ff000000) >>> 24,
   (v &&& 0x0000000000ff0000) >>> 16,
   (v &&& 0x000000000000ff00) >>> 8,
   v &&& 0x00000000000000ff]

/-- The `while mask[0] == 0 && mask.len() > 1 { mask.remove(0) }` loop of
`proof_of_work_server`: drop leading zero bytes but keep at least one
byte. -/
def strip_zeros : List Nat → List Nat
  | [] => []
  | [b] => [b]
  | 0 :: b :: rest => strip_zeros (b :: rest)
  | b :: rest => b :: rest

/-- The salt-masking loop of `proof_of_work_server` (salt mode): for
`i in 0..mask.len()`, AND the mask byte `mask[mask_len-(i+1)]` into the
salt byte `salt[salt_len-(i+1)]`. -/
def pow_mask_loop (salt mask : List Nat) : List Nat :=
  (List.range mask.length).foldl
    (fun sacc i =>
      sacc.set (salt.length - (i + 1))
        ((mask.getD (mask.length - (i + 1)) 0) &&&
          (sacc.getD (salt.length - (i + 1)) 0)))
    salt

/-- Length of `format!("{:b}", x)` for a byte value `x`: the number of
binary digits of `x`, where `0` prints as `"0"` (one digit). -/
def binary_digits (x : Nat) : Nat :=
  if x = 0 then 1 else Nat.log2 x + 1

namespace Catena

variable {σ : Type}

/-- `fn proof_of_work_server`.  The returned tuple is `(password, salt,
associated data, gamma, output length, output hash, p, mode)`; the source's
panics are modelled as `Except.error`. -/
def proof_of_work_server (c : Catena σ) (s : σ) (pwd salt associated_data
    gamma : List Nat) (output_len p mode : Nat) :
    Except String (List Nat × List Nat × List Nat × List Nat × Nat ×
      List Nat × Nat × Nat) :=
  let tweak := c.compute_tweak Domain.proofOfWork output_len
    salt.length associated_data
  let hashv := (c.catena s pwd tweak salt c.g_low c.g_high output_len
    gamma).2
  if mode = 0 then
    let p_bits := (2 ^ (8 * (p / 8 + 1)) - 2 ^ p) % 2 ^ 64
    let mask := strip_zeros (u64_to_be_bytes p_bits)
    let new_salt := pow_mask_loop salt mask
    Except.ok (pwd, new_salt, associated_data, gamma, output_len, hashv, p, 0)
  else if mode = 1 then
    let bin_len := binary_digits (pwd.headD 0) + (pwd.length - 1) * 8
    if bin_len ≠ p then Except.error "pwd is not p bit long"
    else Except.ok ([], salt, associated_data, gamma, output_len, hashv, p, 1)
  else Except.error "Invalid mode for proof of work"

end Catena

/-- The tweak as written in the spec (§4.1): `H(vid) ‖ d ‖ λ ‖
LE16(output_len) ‖ LE16(salt_len) ‖ H(associated_data)`.  This definition
follows the spec's words and is compared against `compute_tweak`, which is
translated from the source. -/
def tweak_spec {σ : Type} (c : Catena σ) (mode : Domain)
    (output_len salt_len : Nat) (a_data : List Nat) : List Nat :=
  c.algorithms.h c.vid ++ [mode.encode] ++ [c.lambda % 256] ++
    le16 output_len ++ le16 salt_len ++ c.algorithms.h a_data

/-- Number of significant bits of a byte value (`0` has none).  Used to
express "leading zeros" of an 8-bit value. -/
def bit_length (x : Nat) : Nat :=
  if x = 0 then 0 else Nat.log2 x + 1

/-- Leading zero bits of an 8-bit value, as in the claim's formula. -/
def leading_zeros8 (x : Nat) : Nat :=
  8 - bit_length x

def brg_swap4 (x : Nat) : Nat :=
  ((x &&& 0x0f0f0f0f0f0f0f0f) <<< 4) ||| ((x &&& 0xf0f0f0f0f0f0f0f0) >>> 4)

def brg_swap2 (x : Nat) : Nat :=
  ((x &&& 0x3333333333333333) <<< 2) ||| ((x &&& 0xcccccccccccccccc) >>> 2)

def brg_swap1 (x : Nat) : Nat :=
  ((x &&& 0x5555555555555555) <<< 1) ||| ((x &&& 0xaaaaaaaaaaaaaaaa) >>> 1)

def reverse_byte_order (index : Nat) : Nat :=
  ((index &&& 0x00000000000000FF) <<< 56) |||
  ((index &&& 0x000000000000FF00) <<< 40) |||
  ((index &&& 0x0000000000FF0000) <<< 24) |||
  ((index &&& 0x00000000FF000000) <<< 8) |||
  ((index &&& 0x000000FF00000000) >>> 8) |||
  ((index &&& 0x0000FF0000000000) >>> 24) |||
  ((index &&& 0x00FF000000000000) >>> 40) |||
  ((index &&& 0xFF00000000000000) >>> 56)

def brg_index (index : Nat) (g : Nat) : Nat :=
  if g = 0 then 0
  else brg_swap1 (brg_swap2 (brg_swap4 (reverse_byte_order index))) >>> (64 - g)

def maskRep : Nat → Nat → Nat → Nat
  | 0, _, _ => 0
  | w + 1, p, k => (2 ^ k - 1) ||| (maskRep w p k <<< p)

/-- Spec-side: reverse the low `g` bits. -/
def bit_reverse_spec : Nat → Nat → Nat
  | 0, _ => 0
  | g + 1, i => (i % 2) * 2 ^ g + bit_reverse_spec g (i / 2)



/-!
Blake2b-1 (`src/src/components/fasthash/blake2b1.rs`): Blake2b reduced to a
single mix round per call, selected by the mutable round counter `r`.
64-bit words are `Nat` with explicit `% 2 ^ 64` where the source relies on
wrapping arithmetic.
-/

/-- `BLAKE2B_IV`. -/
def BLAKE2B_IV : List Nat :=
  [0x6a09e667f3bcc908, 0xbb67ae8584caa73b, 0x3c6ef372fe94f82b,
   0xa54ff53a5f1d36f1, 0x510e527fade682d1, 0x9b05688c2b3e6c1f,
   0x1f83d9abfb41bd6b, 0x5be0cd19137e2179]

/-- `BLAKE2B_IV0`: Catena's fingerprinted `h[0]` constant. -/
def BLAKE2B_IV0 : Nat := 0x6a09e667f2bdc948

/-- `BLAKE2B_SIGMA`: the 12 permutation rows. -/
def BLAKE2B_SIGMA : List (List Nat) :=
  [[0, 1, 2, 3, 4, 5, 6, 7, 8, 9, 10, 11, 12, 13, 14, 15],
   [14, 10, 4, 8, 9, 15, 13, 6, 1, 12, 0, 2, 11, 7, 5, 3],
   [11, 8, 12, 0, 5, 2, 15, 13, 10, 14, 3, 6, 7, 1, 9, 4],
   [7, 9, 3, 1, 13, 12, 11, 14, 2, 6, 5, 10, 4, 0, 15, 8],
   [9, 0, 5, 7, 2, 4, 10, 15, 14, 1, 11, 12, 6, 8, 3, 13],
   [2, 12, 6, 10, 0, 11, 8, 3, 4, 13, 7, 5, 15, 14, 1, 9],
   [12, 5, 1, 15, 14, 13, 4, 10, 0, 7, 6, 3, 9, 2, 8, 11],
   [13, 11, 7, 14, 12, 1, 3, 9, 5, 0, 15, 4, 8, 6, 2, 10],
   [6, 15, 14, 9, 11, 3, 0, 8, 12, 2, 13, 7, 1, 4, 10, 5],
   [10, 2, 8, 4, 7, 6, 1, 5, 15, 11, 9, 14, 3, 12, 13, 0],
   [0, 1, 2, 3, 4, 5, 6, 7, 8, 9, 10, 11, 12, 13, 14, 15],
   [14, 10, 4, 8, 9, 15, 13, 6, 1, 12, 0, 2, 11, 7, 5, 3]]

/-- `BLOCK_LENGTH_BYTES`. -/
def BLOCK_LENGTH_BYTES : Nat := 128

/-- `fn rotr64`: `x.rotate_right(rot) | (x << (64 - rot))` on `u64` (the
second disjunct is redundant but present in the source). -/
def rotr64 (x rot : Nat) : Nat :=
  (((x >>> rot) ||| (x <<< (64 - rot))) % 2 ^ 64) |||
    ((x <<< (64 - rot)) % 2 ^ 64)

/-- `fn u64_to_bytes`: little-endian bytes via `as u8` casts. -/
def u64_to_bytes (v : Nat) : List Nat :=
  [v % 256, (v >>> 8) % 256, (v >>> 16) % 256, (v >>> 24) % 256,
   (v >>> 32) % 256, (v >>> 40) % 256, (v >>> 48) % 256, (v >>> 56) % 256]

/-- `fn bytes_to_u64`: little-endian `u64` from 8 bytes at `offset`. -/
def bytes_to_u64 (bytes : List Nat) (offset : Nat) : Nat :=
  (bytes.getD offset 0 &&& 0xFF) |||
  ((bytes.getD (offset + 1) 0 &&& 0xFF) <<< 8) |||
  ((bytes.getD (offset + 2) 0 &&& 0xFF) <<< 16) |||
  ((bytes.getD (offset + 3) 0 &&& 0xFF) <<< 24) |||
  ((bytes.getD (offset + 4) 0 &&& 0xFF) <<< 32) |||
  ((bytes.getD (offset + 5) 0 &&& 0xFF) <<< 40) |||
  ((bytes.getD (offset + 6) 0 &&& 0xFF) <<< 48) |||
  ((bytes.getD (offset + 7) 0 &&& 0xFF) <<< 56)

/-- `pub struct Blake2b1`: the internal state of Blake2b-1. -/
structure Blake2b1 where
  r : Nat
  h : List Nat
  v : List Nat
  t_0 : Nat
  t_1 : Nat
deriving DecidableEq

namespace Blake2b1

/-- `fn set_r`: set the current round number to `r % 12`. -/
def set_r (s : Blake2b1) (r : Nat) : Blake2b1 :=
  { s with r := r % 12 }

/-- `fn increase_r`: advance the round counter, wrapping at 12. -/
def increase_r (s : Blake2b1) : Blake2b1 :=
  { s with r := (s.r + 1) % 12 }

/-- `fn init`: load `h` with the IV, with `h[0] = BLAKE2B_IV0`. -/
def init (s : Blake2b1) : Blake2b1 :=
  { s with h := [BLAKE2B_IV0, BLAKE2B_IV.getD 1 0, BLAKE2B_IV.getD 2 0,
    BLAKE2B_IV.getD 3 0, BLAKE2B_IV.getD 4 0, BLAKE2B_IV.getD 5 0,
    BLAKE2B_IV.getD 6 0, BLAKE2B_IV.getD 7 0] }

/-- `fn reset`: zero every field, set `r := 0`, then `init()`. -/
def reset (s : Blake2b1) : Blake2b1 :=
  init { s with
    r := 0
    t_0 := 0
    t_1 := 0
    v := List.replicate 16 0
    h := List.replicate 8 0 }

/-- `fn initialize_v` (named `init_v` here): load the 16-word working
vector from `h`, the IV and the counters; `!IV[6]` is bitwise complement
on `u64`. -/
def init_v (s : Blake2b1) : Blake2b1 :=
  { s with v := [s.h.getD 0 0, s.h.getD 1 0, s.h.getD 2 0, s.h.getD 3 0,
    s.h.getD 4 0, s.h.getD 5 0, s.h.getD 6 0, s.h.getD 7 0,
    BLAKE2B_IV.getD 0 0, BLAKE2B_IV.getD 1 0, BLAKE2B_IV.getD 2 0,
    BLAKE2B_IV.getD 3 0, s.t_0 ^^^ BLAKE2B_IV.getD 4 0,
    s.t_1 ^^^ BLAKE2B_IV.getD 5 0, BLAKE2B_IV.getD 6 0 ^^^ (2 ^ 64 - 1),
    BLAKE2B_IV.getD 7 0] }

/-- The sequence of working-vector mutations performed by `fn g` (the
Blake2b quarter-round with rotations 32, 24, 16, 63 and wrapping 64-bit
additions). -/
def g_v (v0 : List Nat) (m1 m2 pos_a pos_b pos_c pos_d : Nat) : List Nat :=
  let v := v0.set pos_a ((v0.getD pos_a 0 + v0.getD pos_b 0) % 2 ^ 64)
  let v := v.set pos_a ((v.getD pos_a 0 + m1) % 2 ^ 64)
  let v := v.set pos_d (rotr64 (v.getD pos_d 0 ^^^ v.getD pos_a 0) 32)
  let v := v.set pos_c ((v.getD pos_c 0 + v.getD pos_d 0) % 2 ^ 64)
  let v := v.set pos_b (rotr64 (v.getD pos_b 0 ^^^ v.getD pos_c 0) 24)
  let v := v.set pos_a ((v.getD pos_a 0 + v.getD pos_b 0) % 2 ^ 64)
  let v := v.set pos_a ((v.getD pos_a 0 + m2) % 2 ^ 64)
  let v := v.set pos_d (rotr64 (v.getD pos_d 0 ^^^ v.getD pos_a 0) 16)
  let v := v.set pos_c ((v.getD pos_c 0 + v.getD pos_d 0) % 2 ^ 64)
  v.set pos_b (rotr64 (v.getD pos_b 0 ^^^ v.getD pos_c 0) 63)

/-- `fn g`: apply the quarter-round mutations to `s.v`. -/
def g (s : Blake2b1) (m1 m2 pos_a pos_b pos_c pos_d : Nat) : Blake2b1 :=
  { s with v := g_v s.v m1 m2 pos_a pos_b pos_c pos_d }

/-- Entry `SIGMA[round][i]`. -/
def sigma_at (round i : Nat) : Nat :=
  (BLAKE2B_SIGMA.getD round []).getD i 0

/-- `fn compress`: one G-round with SIGMA row `r`, then the Blake2b
finalization `h[i] := h[i] ^ v[i] ^ v[i+8]`. -/
def compress (s : Blake2b1) (message : List Nat) : Blake2b1 :=
  let s := init_v s
  let m := fun i => bytes_to_u64 message (i * 8)
  let round := s.r
  let s := g s (m (sigma_at round 0)) (m (sigma_at round 1)) 0 4 8 12
  let s := g s (m (sigma_at round 2)) (m (sigma_at round 3)) 1 5 9 13
  let s := g s (m (sigma_at round 4)) (m (sigma_at round 5)) 2 6 10 14
  let s := g s (m (sigma_at round 6)) (m (sigma_at round 7)) 3 7 11 15
  let s := g s (m (sigma_at round 8)) (m (sigma_at round 9)) 0 5 10 15
  let s := g s (m (sigma_at round 10)) (m (sigma_at round 11)) 1 6 11 12
  let s := g s (m (sigma_at round 12)) (m (sigma_at round 13)) 2 7 8 13
  let s := g s (m (sigma_at round 14)) (m (sigma_at round 15)) 3 4 9 14
  { s with
    h := (List.range 8).map
      (fun off => s.h.getD off 0 ^^^ s.v.getD off 0 ^^^ s.v.getD (off + 8) 0) }

/-- `fn hash`: bump the byte counter (wrapping), compress, emit `h` as 64
little-endian bytes, and advance the round counter. -/
def hash (s : Blake2b1) (x : List Nat) : Blake2b1 × List Nat :=
  let t0 := (s.t_0 + BLOCK_LENGTH_BYTES) % 2 ^ 64
  let t1 := if t0 = 0 then (s.t_1 + 1) % 2 ^ 64 else s.t_1
  let s := { s with t_0 := t0, t_1 := t1 }
  let s := compress s x
  let out := (s.h.map u64_to_bytes).flatten
  (increase_r s, out)

end Blake2b1

/-- One operation on a `Blake2b1` state (for the round-counter state
machine of the spec, §4.8). -/
inductive B1Op where
  | ophash : List Nat → B1Op
  | opreset : B1Op
  | opsetr : Nat → B1Op
  | opincr : B1Op

/-- Apply one operation to a `Blake2b1` state. -/
def B1Op.apply (s : Blake2b1) : B1Op → Blake2b1
  | B1Op.ophash x => (Blake2b1.hash s x).1
  | B1Op.opreset => Blake2b1.reset s
  | B1Op.opsetr r0 => Blake2b1.set_r s r0
  | B1Op.opincr => Blake2b1.increase_r s

/-- Run a sequence of operations on a `Blake2b1` state. -/
def run_ops (s : Blake2b1) (ops : List B1Op) : Blake2b1 :=
  ops.foldl B1Op.apply s


/-- The `u64` shift amount `8 * ((p / 8) + 1)` used by the salt-mode mask
computation `(1 << (8 * ((p / 8) + 1))) - (1 << p)` in
`proof_of_work_server`. -/
def pow_shift_amount (p : Nat) : Nat := 8 * (p / 8 + 1)

/-- Big-endian integer value of a byte string (the interpretation under
which the salt's "p lowest bits" are masked). -/
def be_val : List Nat → Nat
  | [] => 0
  | b :: rest => b * 2 ^ (8 * rest.length) + be_val rest

/-!
A small concrete Catena instance used to witness the theorems below.  The
`Algorithms` trait of the source is explicitly user-implementable ("These
can either be implemented by users ..."), so any record of functions with
`k mod n = 0` is a Catena instance.  Here `n = k = 1`, the state of `H'` is
a `Nat` counter, and `reset_h_prime` is the constant `0` (like Blake2b-1's
`reset`, it forgets the previous state entirely).
-/

/-- A tiny concrete `Algorithms` instance: one-byte `H` and `H'`, with a
state-dependent `H'` and a constant reset. -/
def toyAlgorithms : Algorithms Nat where
  h := fun x => [(x.foldl (fun a b => a + b) 0 + x.length) % 256]
  h_prime := fun s x => (s + 1, [(x.foldl (fun a b => a + b) 0 + s) % 256])
  reset_h_prime := fun _ => 0
  gamma := fun s _ state _ _ => (s, state)
  f := fun s _ state _ _ _ => (s, state)
  phi := fun s _ state _ _ => (s, state)

/-- A tiny concrete Catena instance over `toyAlgorithms` with
`n = k = 1`, `g_low = g_high = 0`, `λ = 1`. -/
def toyCatena : Catena Nat where
  algorithms := toyAlgorithms
  vid := [84]
  n := 1
  k := 1
  g_low := 0
  g_high := 0
  lambda := 1

/-!
Helper lemmas about the garlic loop.
-/

/-- The second component of one garlic-loop iteration always has length
`min m n`: it is `truncate(H(...), m)` and `H` returns `n` bytes. -/
theorem catena_loop_step_length {σ : Type} (c : Catena σ)
    (Hn : ∀ x, (c.algorithms.h x).length = c.n)
    (m : Nat) (gamma : List Nat) (sx : σ × List Nat) (g : Nat) :
    ((c.catena_loop_step m gamma sx g).2).length = min m c.n := by
  simp [Catena.catena_loop_step, Catena.h2, Hn]

/-- Folding the garlic-loop body over a non-empty list of garlics produces
a byte string of length `min m n`. -/
theorem catena_loop_foldl_length {σ : Type} (c : Catena σ)
    (Hn : ∀ x, (c.algorithms.h x).length = c.n)
    (m : Nat) (gamma : List Nat) :
    ∀ (l : List Nat) (sx : σ × List Nat), l ≠ [] →
      ((l.foldl (c.catena_loop_step m gamma) sx).2).length = min m c.n := by
  intro l
  induction l with
  | nil => intro sx hne; exact absurd rfl hne
  | cons g rest ih =>
    intro sx _
    cases rest with
    | nil => simpa using catena_loop_step_length c Hn m gamma sx g
    | cons g2 rest2 =>
      simpa using ih (c.catena_loop_step m gamma sx g) (by simp)

/-- `List.range'` of a successor count, split off the last element. -/
theorem range'_concat_last (s n : Nat) :
    List.range' s (n + 1) = List.range' s n ++ [s + n] := by
  have e : List.range' s (n + 1) = List.range' s n ++ [s + 1 * n] :=
    List.range'_concat s n
  simpa using e

/-- Gluing two adjacent `List.range'` segments of the garlic loop. -/
theorem range'_glue (lo mid hi : Nat) (h1 : lo ≤ mid) (h2 : mid < hi) :
    List.range' lo (mid + 1 - lo) ++ List.range' (mid + 1) (hi - mid) =
      List.range' lo (hi + 1 - lo) := by
  have e := List.range'_append lo (mid + 1 - lo) (hi - mid) 1
  simp only [one_mul, List.range'_one] at e
  rw [show lo + (mid + 1 - lo) = mid + 1 by omega] at e
  rw [e, show hi - mid + (mid + 1 - lo) = hi + 1 - lo by omega]

/-- Projection: a `g_high` update leaves `g_low` unchanged. -/
theorem update_g_high_g_low {σ : Type} (c : Catena σ) (x : Nat) :
    ({c with g_high := x} : Catena σ).g_low = c.g_low := rfl

/-- Projection: a `g_high` update stores `g_high`. -/
theorem update_g_high_g_high {σ : Type} (c : Catena σ) (x : Nat) :
    ({c with g_high := x} : Catena σ).g_high = x := rfl

/-- `compute_tweak` does not read `g_high`. -/
theorem compute_tweak_update_g_high {σ : Type} (c : Catena σ) (x : Nat) :
    ({c with g_high := x} : Catena σ).compute_tweak = c.compute_tweak := rfl

/-- The vertex chain does not read `g_high`. -/
theorem v_chain_update_g_high {σ : Type} (c : Catena σ) (x : Nat) :
    ({c with g_high := x} : Catena σ).v_chain = c.v_chain := by
  funext s w1 w2 cnt
  induction cnt generalizing s w1 w2 with
  | zero => rfl
  | succ cnt ih =>
    simp only [Catena.v_chain]
    rw [show ({c with g_high := x} : Catena σ).h_prime2 = c.h_prime2 from rfl,
      ih]

/-- `flap` does not read `g_high`. -/
theorem flap_update_g_high {σ : Type} (c : Catena σ) (x : Nat) :
    ({c with g_high := x} : Catena σ).flap = c.flap := by
  funext s g y gamma
  simp only [Catena.flap, v_chain_update_g_high]
  rfl

/-- The garlic-loop body does not read `g_high`. -/
theorem catena_loop_step_update_g_high {σ : Type} (c : Catena σ) (x : Nat) :
    ({c with g_high := x} : Catena σ).catena_loop_step = c.catena_loop_step := by
  funext m gamma sx g
  simp only [Catena.catena_loop_step, flap_update_g_high]
  rfl

/-- C1 (amended).  For every Catena instance whose `H` returns `n`-byte
digests and whose garlic bounds satisfy `g_low ≤ g_high`, the byte string
returned by `hash(pwd, salt, ad, m, γ)` has length exactly `min m n`; in
particular it has length exactly `m` whenever `m ≤ n`, but for `m > n` it
has length `n`, not `m`. -/
theorem hash_output_length {σ : Type} (c : Catena σ) (s : σ)
    (pwd salt associated_data : List Nat) (m : Nat) (gamma : List Nat)
    (Hn : ∀ x, (c.algorithms.h x).length = c.n)
    (Hg : c.g_low ≤ c.g_high) :
    ((c.hash s pwd salt associated_data m gamma).2).length = min m c.n := by
  unfold Catena.hash Catena.catena
  apply catena_loop_foldl_length c Hn
  simp only [ne_eq, List.range'_eq_nil]
  omega

/-- C1, counterexample to the claim as stated: a Catena instance (the
`Algorithms` trait is user-implementable) with `n = 1` and requested output
length `m = 2` returns a 1-byte string, not a 2-byte one.  The published
instances behave the same way for any `m > 64`: the final
`x.truncate(m as usize)` cannot lengthen the `n`-byte digest. -/
theorem hash_output_length_counterexample :
    ¬ (((toyCatena.hash 0 [1] [2] [3] 2 [4]).2).length = 2) := by decide

/-- C1, witness: the amended theorem applied to the concrete instance
`toyCatena` (`n = 1`) with `m = 2`. -/
theorem hash_output_length_witness :
    ((toyCatena.hash 0 [1] [2] [3] 2 [4]).2).length = min 2 1 :=
  hash_output_length toyCatena 0 [1] [2] [3] 2 [4] (fun _ => rfl) (by decide)

/-- C2.  For every Catena instance (garlic bounds `g_low ≤ g_high`) and all
inputs, composing the server-relief split reproduces the plain hash:
`server_final(client_prep(pwd, salt, ad, m, γ), m) = hash(pwd, salt, ad, m,
γ)`.  `client_prep` runs the garlic loop with an exclusive upper bound and
one extra `flap(g_high)` without the final `H`; `server_final` supplies
exactly that missing `H(LE1(g_high) ‖ ·)` and truncation. -/
theorem server_relief_correct {σ : Type} (c : Catena σ) (s : σ)
    (pwd salt associated_data : List Nat) (m : Nat) (gamma : List Nat)
    (Hg : c.g_low ≤ c.g_high) :
    c.server_final (c.client_prep s pwd salt associated_data m gamma).2 m =
      (c.hash s pwd salt associated_data m gamma).2 := by
  simp only [Catena.server_final, Catena.client_prep, Catena.hash,
    Catena.catena, Catena.h3]
  rw [show c.g_high + 1 - c.g_low = (c.g_high - c.g_low) + 1 by omega,
    range'_concat_last, List.foldl_append,
    show c.g_low + (c.g_high - c.g_low) = c.g_high by omega]
  rcases Nat.lt_or_ge c.g_low c.g_high with hlt | hge
  · rw [if_pos hlt]
    rfl
  · have heq : c.g_high = c.g_low := Nat.le_antisymm hge Hg
    rw [if_neg (by omega), heq]
    simp only [Nat.sub_self, List.range'_zero, List.foldl_nil]
    rfl

/-- C2, witness: the theorem applied to the concrete instance `toyCatena`
(with `g_low = 0 < g_high = 2` so that both loop shapes are exercised). -/
theorem server_relief_correct_witness :
    (let c : Catena Nat := {toyCatena with g_high := 2}
     c.server_final (c.client_prep 0 [1] [2] [3] 1 [4]).2 1 =
       (c.hash 0 [1] [2] [3] 1 [4]).2) :=
  server_relief_correct {toyCatena with g_high := 2} 0 [1] [2] [3] 1 [4]
    (by decide)

/-- C4.  Whenever `new_g_high ≤ old_g_high`, `client_independent_update`
fails immediately with the domain error, for all values of the old hash,
gamma and the output length; no flap or hash computation is reachable in
that branch and no result is produced. -/
theorem ciu_rejects_nonincreasing_garlic {σ : Type} (c : Catena σ) (s : σ)
    (old_hash : List Nat) (old_g_high new_g_high : Nat) (gamma : List Nat)
    (output_length : Nat) (h : new_g_high ≤ old_g_high) :
    c.client_independent_update s old_hash old_g_high new_g_high gamma
      output_length =
      Except.error "new_g_high has to be bigger than old_g_high" := by
  unfold Catena.client_independent_update
  rw [if_pos (by omega)]

/-- C4, witness: the theorem applied at `old_g_high = 2`, `new_g_high = 1`
(the repository's own `ci_update_panic_test`). -/
theorem ciu_rejects_nonincreasing_garlic_witness :
    toyCatena.client_independent_update 0 [0] 2 1 [0] 1 =
      Except.error "new_g_high has to be bigger than old_g_high" :=
  ciu_rejects_nonincreasing_garlic toyCatena 0 [0] 2 1 [0] 1 (by decide)

/-- C3.  Running `client_independent_update(·, G₁, G₂, γ, m)` on the
output of `hash` computed with `g_high = G₁` (together with the H'-state
that run left behind) yields exactly the hash computed directly with
`g_high = G₂`, for any `G₂ > G₁ ≥ g_low` and the same `g_low` in both
runs. -/
theorem ciu_extends_hash {σ : Type} (c : Catena σ) (s : σ)
    (pwd salt associated_data : List Nat) (m : Nat) (gamma : List Nat)
    (G1 G2 : Nat) (hlt : G1 < G2) (hlo : c.g_low ≤ G1) :
    Catena.client_independent_update {c with g_high := G1}
      ((Catena.hash {c with g_high := G1} s pwd salt associated_data m
        gamma).1)
      ((Catena.hash {c with g_high := G1} s pwd salt associated_data m
        gamma).2)
      G1 G2 gamma m =
      Except.ok (Catena.hash {c with g_high := G2} s pwd salt
        associated_data m gamma) := by
  unfold Catena.client_independent_update
  rw [if_neg (by omega)]
  unfold Catena.hash Catena.catena
  simp only [compute_tweak_update_g_high, flap_update_g_high,
    catena_loop_step_update_g_high, update_g_high_g_low,
    update_g_high_g_high,
    show ∀ x, ({c with g_high := x} : Catena σ).algorithms = c.algorithms
      from fun _ => rfl]
  rw [Prod.mk.eta, ← List.foldl_append,
    range'_glue c.g_low G1 G2 hlo hlt]

/-- C3, witness: the theorem applied to the concrete instance `toyCatena`
with `G₁ = 0 < G₂ = 2`. -/
theorem ciu_extends_hash_witness :
    Catena.client_independent_update {toyCatena with g_high := 0}
      ((Catena.hash {toyCatena with g_high := 0} 0 [1] [2] [3] 1 [4]).1)
      ((Catena.hash {toyCatena with g_high := 0} 0 [1] [2] [3] 1 [4]).2)
      0 2 [4] 1 =
      Except.ok (Catena.hash {toyCatena with g_high := 2} 0 [1] [2] [3] 1
        [4]) :=
  ciu_extends_hash toyCatena 0 [1] [2] [3] 1 [4] 0 2 (by decide) (by decide)

/-- C5.  For every Catena instance and every domain
(`PasswordScrambling = 0`, `KeyDerivation = 1`, `ProofOfWork = 2`),
`compute_tweak` returns exactly the concatenation
`H(vid) ‖ d ‖ λ ‖ LE16(output_len) ‖ LE16(salt_len) ‖ H(associated_data)`
with `LE16` the two-byte little-endian encoding, and the result has length
`n + 2 + 2 + 2 + n` whenever `H` returns `n`-byte digests. -/
theorem compute_tweak_correct {σ : Type} (c : Catena σ) (mode : Domain)
    (output_len salt_len : Nat) (a_data : List Nat)
    (Hn : ∀ x, (c.algorithms.h x).length = c.n) :
    c.compute_tweak mode output_len salt_len a_data =
      tweak_spec c mode output_len salt_len a_data ∧
    (c.compute_tweak mode output_len salt_len a_data).length =
      c.n + 2 + 2 + 2 + c.n ∧
    Domain.encode Domain.passwordScrambling = 0 ∧
    Domain.encode Domain.keyDerivation = 1 ∧
    Domain.encode Domain.proofOfWork = 2 := by
  refine ⟨by simp [Catena.compute_tweak, tweak_spec], ?_, rfl, rfl, rfl⟩
  simp [Catena.compute_tweak, le16, Hn]
  omega

/-- C5, witness: the theorem applied to the concrete instance `toyCatena`
(`n = 1`) with domain `ProofOfWork`, output length 300 and salt length
77. -/
theorem compute_tweak_correct_witness :
    toyCatena.compute_tweak Domain.proofOfWork 300 77 [5] =
        tweak_spec toyCatena Domain.proofOfWork 300 77 [5] ∧
      (toyCatena.compute_tweak Domain.proofOfWork 300 77 [5]).length =
        1 + 2 + 2 + 2 + 1 ∧
      Domain.encode Domain.passwordScrambling = 0 ∧
      Domain.encode Domain.keyDerivation = 1 ∧
      Domain.encode Domain.proofOfWork = 2 :=
  compute_tweak_correct toyCatena Domain.proofOfWork 300 77 [5]
    (fun _ => rfl)

/-- `flap` is insensitive to the incoming H'-state whenever
`reset_h_prime` is a constant function: the reset before the vertex chain
happens before the first use of the state. -/
theorem flap_state_independent {σ : Type} (c : Catena σ)
    (hreset : ∀ t tt : σ,
      c.algorithms.reset_h_prime t = c.algorithms.reset_h_prime tt)
    (s1 s2 : σ) (garlic : Nat) (x gamma : List Nat) :
    c.flap s1 garlic x gamma = c.flap s2 garlic x gamma := by
  simp only [Catena.flap]
  rw [hreset s1 s2]

/-- C9.  `hash` is deterministic as a two-run property: two invocations
with identical inputs produce identical outputs even when the mutable
H'-state differs arbitrarily between the runs at call time, provided
`reset_h_prime` erases the previous state (i.e. is a constant function, as
Blake2b-1's `reset` is).  `flap` resets H' before the v-chain and before
each of Γ, F and Φ; the first reset happens before any use of the incoming
state, which makes the whole run state-independent. -/
theorem hash_deterministic {σ : Type} (c : Catena σ) (s1 s2 : σ)
    (pwd salt associated_data : List Nat) (m : Nat) (gamma : List Nat)
    (hreset : ∀ t tt : σ,
      c.algorithms.reset_h_prime t = c.algorithms.reset_h_prime tt) :
    c.hash s1 pwd salt associated_data m gamma =
      c.hash s2 pwd salt associated_data m gamma := by
  simp only [Catena.hash, Catena.catena]
  rw [flap_state_independent c hreset s1 s2]

/-- C9, witness: the theorem applied to the concrete instance `toyCatena`,
whose `H'` depends on its `Nat` state and whose `reset_h_prime` is the
constant `0`, at the distinct initial states `3` and `17`. -/
theorem hash_deterministic_witness :
    toyCatena.hash 3 [1] [2] [3] 1 [4] = toyCatena.hash 17 [1] [2] [3] 1 [4] :=
  hash_deterministic toyCatena 3 17 [1] [2] [3] 1 [4] (fun _ _ => rfl)

/-- C6 (amended).  In `proof_of_work_server` with `mode = 1`, for every
non-empty `pwd` and every `p`, the call fails with the length error exactly
when `binary_digits(pwd[0]) + (|pwd| - 1)·8` differs from `p`, where
`binary_digits` is the length of `format!("{:b}", pwd[0])` (so
`binary_digits 0 = 1`, not `0`); otherwise it returns a tuple whose
password component is the empty byte string.  For `pwd[0] ≠ 0` this
criterion agrees with the claim's `|pwd|·8 − leading-zeros(pwd[0])`; the
two differ exactly when `pwd[0] = 0`. -/
theorem pow_pwd_mode_length_check {σ : Type} (c : Catena σ) (s : σ)
    (pwd salt associated_data gamma : List Nat) (output_len p : Nat)
    (hne : pwd ≠ []) (hb : pwd.headD 0 < 256) :
    ((c.proof_of_work_server s pwd salt associated_data gamma output_len p 1
        = Except.error "pwd is not p bit long") ↔
      binary_digits (pwd.headD 0) + (pwd.length - 1) * 8 ≠ p) ∧
    (∀ t, c.proof_of_work_server s pwd salt associated_data gamma output_len
        p 1 = Except.ok t → t.1 = []) ∧
    (pwd.headD 0 ≠ 0 →
      binary_digits (pwd.headD 0) + (pwd.length - 1) * 8 =
        pwd.length * 8 - leading_zeros8 (pwd.headD 0)) := by
  refine ⟨?_, ?_, ?_⟩
  · simp only [Catena.proof_of_work_server]
    norm_num
    simp
  · intro t ht
    simp only [Catena.proof_of_work_server] at ht
    norm_num at ht
    split at ht
    · simp only [Except.ok.injEq] at ht
      rw [← ht]
    · exact absurd ht (by simp)
  · intro h0
    have hlen : 1 ≤ pwd.length := List.length_pos.mpr hne
    have hlog : Nat.log2 (pwd.headD 0) < 8 := (Nat.log2_lt h0).mpr hb
    simp only [binary_digits, bit_length, leading_zeros8, if_neg h0]
    omega

/-- C6, counterexample to the claim as stated: for `pwd = [0]` and `p = 0`
the claim's criterion `|pwd|·8 − leading-zeros(pwd[0]) = 0 = p` predicts
success, but the source computes `format!("{:b}", 0).len() = 1 ≠ 0` and
panics with the length error. -/
theorem pow_pwd_mode_length_check_counterexample :
    ([0] : List Nat).length * 8 - leading_zeros8 (([0] : List Nat).headD 0)
        = 0 ∧
      toyCatena.proof_of_work_server 0 [0] [1] [] [] 1 0 1 =
        Except.error "pwd is not p bit long" :=
  ⟨by decide, rfl⟩

/-- C6, witness: the amended theorem applied to the concrete instance
`toyCatena` with `pwd = [1]`, `p = 1` (one significant bit). -/
theorem pow_pwd_mode_length_check_witness :
    ((toyCatena.proof_of_work_server 0 [1] [1] [] [] 1 1 1
        = Except.error "pwd is not p bit long") ↔
      binary_digits (([1] : List Nat).headD 0) +
        (([1] : List Nat).length - 1) * 8 ≠ 1) ∧
    (∀ t, toyCatena.proof_of_work_server 0 [1] [1] [] [] 1 1 1 =
        Except.ok t → t.1 = []) ∧
    (([1] : List Nat).headD 0 ≠ 0 →
      binary_digits (([1] : List Nat).headD 0) +
        (([1] : List Nat).length - 1) * 8 =
        ([1] : List Nat).length * 8 -
          leading_zeros8 (([1] : List Nat).headD 0)) :=
  pow_pwd_mode_length_check toyCatena 0 [1] [1] [] [] 1 1 (by decide)
    (by decide)

theorem maskRep_testBit (p k : Nat) (hk : 0 < k) (hkp : k ≤ p) :
    ∀ w j, (maskRep w p k).testBit j =
      (decide (j < p * w) && decide (j % p < k)) := by
  intro w
  induction w with
  | zero => intro j; simp [maskRep]
  | succ w ih =>
    intro j
    simp only [maskRep, Nat.testBit_or, Nat.testBit_shiftLeft, ih,
      Nat.testBit_two_pow_sub_one, Nat.mul_succ]
    rcases Nat.lt_or_ge j p with hjp | hjp
    · have h1 : ¬ (j ≥ p) := by omega
      have h2 : j % p = j := Nat.mod_eq_of_lt hjp
      simp only [h1, decide_False, Bool.false_and, Bool.and_false,
        Bool.or_false, h2]
      rcases Nat.lt_or_ge j k with h3 | h3
      · have h4 : j < p * w + p := by omega
        simp [h3, h4]
      · simp [h3]
    · have h1 : j ≥ p := hjp
      have h2 : ¬ (j < k) := by omega
      have h3 : (j - p) % p = j % p := (Nat.mod_eq_sub_mod h1).symm
      have h4 : decide (j - p < p * w) = decide (j < p * w + p) := by
        rw [decide_eq_decide]; omega
      simp [h1, h2, h3, h4]

theorem testBit_mask255 (j : Nat) : (255 : Nat).testBit j = decide (j < 8) := by
  rw [show (255 : Nat) = 2 ^ 8 - 1 by norm_num]
  exact Nat.testBit_two_pow_sub_one 8 j

theorem testBit_mask0f (j : Nat) :
    (0x0f0f0f0f0f0f0f0f : Nat).testBit j =
      (decide (j < 64) && decide (j % 8 < 4)) := by
  rw [show (0x0f0f0f0f0f0f0f0f : Nat) = maskRep 8 8 4 by decide,
    maskRep_testBit 8 4 (by norm_num) (by norm_num)]

theorem testBit_mask33 (j : Nat) :
    (0x3333333333333333 : Nat).testBit j =
      (decide (j < 64) && decide (j % 4 < 2)) := by
  rw [show (0x3333333333333333 : Nat) = maskRep 16 4 2 by decide,
    maskRep_testBit 4 2 (by norm_num) (by norm_num)]

theorem testBit_mask55 (j : Nat) :
    (0x5555555555555555 : Nat).testBit j =
      (decide (j < 64) && decide (j % 2 < 1)) := by
  rw [show (0x5555555555555555 : Nat) = maskRep 32 2 1 by decide,
    maskRep_testBit 2 1 (by norm_num) (by norm_num)]

theorem testBit_maskf0 (j : Nat) :
    (0xf0f0f0f0f0f0f0f0 : Nat).testBit j =
      (decide (j ≥ 4) &&
        (decide (j - 4 < 64) && decide ((j - 4) % 8 < 4))) := by
  rw [show (0xf0f0f0f0f0f0f0f0 : Nat) = 0x0f0f0f0f0f0f0f0f <<< 4 by decide,
    Nat.testBit_shiftLeft, testBit_mask0f]

theorem testBit_maskcc (j : Nat) :
    (0xcccccccccccccccc : Nat).testBit j =
      (decide (j ≥ 2) &&
        (decide (j - 2 < 64) && decide ((j - 2) % 4 < 2))) := by
  rw [show (0xcccccccccccccccc : Nat) = 0x3333333333333333 <<< 2 by decide,
    Nat.testBit_shiftLeft, testBit_mask33]

theorem testBit_maskaa (j : Nat) :
    (0xaaaaaaaaaaaaaaaa : Nat).testBit j =
      (decide (j ≥ 1) &&
        (decide (j - 1 < 64) && decide ((j - 1) % 2 < 1))) := by
  rw [show (0xaaaaaaaaaaaaaaaa : Nat) = 0x5555555555555555 <<< 1 by decide,
    Nat.testBit_shiftLeft, testBit_mask55]

theorem testBit_ff1 (j : Nat) :
    (0xFF00 : Nat).testBit j = (decide (j ≥ 8) && decide (j - 8 < 8)) := by
  rw [show (0xFF00 : Nat) = 255 <<< 8 by decide, Nat.testBit_shiftLeft,
    testBit_mask255]

theorem testBit_ff2 (j : Nat) :
    (0xFF0000 : Nat).testBit j =
      (decide (j ≥ 16) && decide (j - 16 < 8)) := by
  rw [show (0xFF0000 : Nat) = 255 <<< 16 by decide, Nat.testBit_shiftLeft,
    testBit_mask255]

theorem testBit_ff3 (j : Nat) :
    (0xFF000000 : Nat).testBit j =
      (decide (j ≥ 24) && decide (j - 24 < 8)) := by
  rw [show (0xFF000000 : Nat) = 255 <<< 24 by decide, Nat.testBit_shiftLeft,
    testBit_mask255]

theorem testBit_ff4 (j : Nat) :
    (0xFF00000000 : Nat).testBit j =
      (decide (j ≥ 32) && decide (j - 32 < 8)) := by
  rw [show (0xFF00000000 : Nat) = 255 <<< 32 by decide,
    Nat.testBit_shiftLeft, testBit_mask255]

theorem testBit_ff5 (j : Nat) :
    (0xFF0000000000 : Nat).testBit j =
      (decide (j ≥ 40) && decide (j - 40 < 8)) := by
  rw [show (0xFF0000000000 : Nat) = 255 <<< 40 by decide,
    Nat.testBit_shiftLeft, testBit_mask255]

theorem testBit_ff6 (j : Nat) :
    (0xFF000000000000 : Nat).testBit j =
      (decide (j ≥ 48) && decide (j - 48 < 8)) := by
  rw [show (0xFF000000000000 : Nat) = 255 <<< 48 by decide,
    Nat.testBit_shiftLeft, testBit_mask255]

theorem testBit_ff7 (j : Nat) :
    (0xFF00000000000000 : Nat).testBit j =
      (decide (j ≥ 56) && decide (j - 56 < 8)) := by
  rw [show (0xFF00000000000000 : Nat) = 255 <<< 56 by decide,
    Nat.testBit_shiftLeft, testBit_mask255]

set_option maxHeartbeats 2000000 in
theorem brg_core_testBit (x : Nat) (j : Nat) (hj : j < 64) :
    (brg_swap1 (brg_swap2 (brg_swap4 (reverse_byte_order x)))).testBit j =
      x.testBit (63 - j) := by
  interval_cases j <;>
    simp [brg_swap1, brg_swap2, brg_swap4, reverse_byte_order,
      Nat.testBit_or, Nat.testBit_and, Nat.testBit_shiftLeft,
      Nat.testBit_shiftRight, testBit_mask0f, testBit_mask33,
      testBit_mask55, testBit_maskf0, testBit_maskcc, testBit_maskaa,
      testBit_mask255, testBit_ff1, testBit_ff2, testBit_ff3, testBit_ff4,
      testBit_ff5, testBit_ff6, testBit_ff7]

theorem bit_reverse_spec_lt (g : Nat) : ∀ i, bit_reverse_spec g i < 2 ^ g := by
  induction g with
  | zero => intro i; simp [bit_reverse_spec]
  | succ g ih =>
    intro i
    have h1 := ih (i / 2)
    have h2 : i % 2 ≤ 1 := by omega
    have h3 : (i % 2) * 2 ^ g ≤ 2 ^ g := by
      calc (i % 2) * 2 ^ g ≤ 1 * 2 ^ g := Nat.mul_le_mul_right _ h2
      _ = 2 ^ g := Nat.one_mul _
    simp only [bit_reverse_spec, pow_succ]
    omega

theorem testBit_mul_two_pow_add (a R g j : Nat) (hR : R < 2 ^ g) :
    (a * 2 ^ g + R).testBit j =
      if j < g then R.testBit j else a.testBit (j - g) := by
  rcases Nat.lt_or_ge j g with hj | hj
  · rw [if_pos hj, Nat.testBit_to_div_mod, Nat.testBit_to_div_mod]
    have e0 : (2 : Nat) ^ g = 2 * 2 ^ (g - j - 1) * 2 ^ j := by
      calc (2 : Nat) ^ g = 2 ^ (1 + (g - j - 1) + j) := by
            rw [show 1 + (g - j - 1) + j = g by omega]
        _ = 2 ^ 1 * 2 ^ (g - j - 1) * 2 ^ j := by rw [Nat.pow_add, Nat.pow_add]
        _ = 2 * 2 ^ (g - j - 1) * 2 ^ j := by norm_num
    have e1 : a * 2 ^ g + R = R + (a * 2 ^ (g - j - 1) * 2) * 2 ^ j := by
      rw [e0]; ring
    rw [e1, Nat.add_mul_div_right _ _ (Nat.pos_pow_of_pos j (by norm_num)),
      Nat.add_mul_mod_self_right]
  · rw [if_neg (by omega), Nat.testBit_to_div_mod, Nat.testBit_to_div_mod]
    have e2 : (2 : Nat) ^ j = 2 ^ g * 2 ^ (j - g) := by
      rw [← Nat.pow_add, show g + (j - g) = j by omega]
    have e3 : (a * 2 ^ g + R) / 2 ^ g = a := by
      rw [Nat.mul_comm a (2 ^ g),
        Nat.mul_add_div (Nat.pos_pow_of_pos g (by norm_num)),
        Nat.div_eq_of_lt hR, Nat.add_zero]
    rw [e2, ← Nat.div_div_eq_div_mul, e3]

theorem bit_reverse_spec_testBit (g : Nat) :
    ∀ i j, (bit_reverse_spec g i).testBit j =
      (decide (j < g) && i.testBit (g - 1 - j)) := by
  induction g with
  | zero => intro i j; simp [bit_reverse_spec]
  | succ g ih =>
    intro i j
    rw [bit_reverse_spec,
      testBit_mul_two_pow_add _ _ _ _ (bit_reverse_spec_lt g (i / 2))]
    rcases Nat.lt_trichotomy j g with hj | hj | hj
    · rw [if_pos hj, ih]
      have e3 : (i / 2).testBit (g - 1 - j) = i.testBit (g - j) := by
        rw [← Nat.testBit_add_one, show g - 1 - j + 1 = g - j by omega]
      rw [e3]
      simp [show j < g from hj, show j < g + 1 by omega,
        show g + 1 - 1 - j = g - j by omega]
    · subst hj
      rw [if_neg (by omega), Nat.sub_self]
      have e4 : (i % 2).testBit 0 = i.testBit 0 := by
        simp [Nat.testBit_to_div_mod, Nat.mod_mod_of_dvd]
      rw [e4]
      simp [show j < j + 1 by omega, show j + 1 - 1 - j = 0 by omega]
    · rw [if_neg (by omega)]
      have e5 : i % 2 < 2 ^ (j - g) := by
        have h6 : (2 : Nat) ^ 1 ≤ 2 ^ (j - g) := Nat.pow_le_pow_right
          (by norm_num) (by omega)
        have h7 : i % 2 < 2 := Nat.mod_lt _ (by norm_num)
        simpa using Nat.lt_of_lt_of_le h7 (by simpa using h6)
      rw [Nat.testBit_lt_two_pow e5]
      simp [show ¬ (j < g + 1) by omega]

theorem brg_swap1_lt (y : Nat) : brg_swap1 y < 2 ^ 64 := by
  apply Nat.or_lt_two_pow
  · have h1 : y &&& 0x5555555555555555 ≤ 0x5555555555555555 :=
      Nat.and_le_right
    have h2 : (y &&& 0x5555555555555555) <<< 1 =
        (y &&& 0x5555555555555555) * 2 ^ 1 := Nat.shiftLeft_eq _ _
    rw [h2]
    calc (y &&& 0x5555555555555555) * 2 ^ 1 ≤ 0x5555555555555555 * 2 ^ 1 :=
        Nat.mul_le_mul_right _ h1
      _ < 2 ^ 64 := by norm_num
  · have h1 : y &&& 0xaaaaaaaaaaaaaaaa ≤ 0xaaaaaaaaaaaaaaaa :=
      Nat.and_le_right
    have h2 : (y &&& 0xaaaaaaaaaaaaaaaa) >>> 1 ≤ y &&& 0xaaaaaaaaaaaaaaaa := by
      rw [Nat.shiftRight_eq_div_pow]
      exact Nat.div_le_self _ _
    calc (y &&& 0xaaaaaaaaaaaaaaaa) >>> 1 ≤ 0xaaaaaaaaaaaaaaaa := by omega
      _ < 2 ^ 64 := by norm_num

theorem brg_index_eq_spec (g : Nat) (h1 : 1 ≤ g) (h2 : g ≤ 63) (i : Nat) :
    brg_index i g = bit_reverse_spec g i := by
  apply Nat.eq_of_testBit_eq
  intro j
  rw [brg_index, if_neg (by omega), Nat.testBit_shiftRight,
    bit_reverse_spec_testBit]
  rcases Nat.lt_or_ge j g with hj | hj
  · rw [brg_core_testBit _ _ (by omega)]
    simp [show 63 - (64 - g + j) = g - 1 - j by omega, hj]
  · have hc : brg_swap1 (brg_swap2 (brg_swap4 (reverse_byte_order i))) <
        2 ^ (64 - g + j) := by
      calc brg_swap1 (brg_swap2 (brg_swap4 (reverse_byte_order i))) <
          2 ^ 64 := brg_swap1_lt _
        _ ≤ 2 ^ (64 - g + j) := Nat.pow_le_pow_right (by norm_num) (by omega)
    rw [Nat.testBit_lt_two_pow hc]
    simp [show ¬ (j < g) by omega]

theorem bit_reverse_spec_zero (g : Nat) : bit_reverse_spec g 0 = 0 := by
  induction g with
  | zero => rfl
  | succ g ih => simp [bit_reverse_spec, ih]

theorem bit_reverse_spec_ones (g : Nat) :
    bit_reverse_spec g (2 ^ g - 1) = 2 ^ g - 1 := by
  induction g with
  | zero => rfl
  | succ g ih =>
    have hp : (2 : Nat) ^ (g + 1) = 2 * 2 ^ g := by rw [pow_succ]; ring
    have hg : (1 : Nat) ≤ 2 ^ g := Nat.one_le_two_pow
    have e1 : (2 ^ (g + 1) - 1) % 2 = 1 := by omega
    have e2 : (2 ^ (g + 1) - 1) / 2 = 2 ^ g - 1 := by omega
    rw [bit_reverse_spec, e1, e2, ih]
    omega

/-- C7.  For every garlic `1 ≤ g ≤ 63` and every index `i < 2^g`,
`brg_index(i, g)` equals the value obtained by reversing the low `g` bits
of `i`; `BRG(0, g) = 0`; `BRG(2^g - 1, g) = 2^g - 1`; and for `g = 0` the
index function is constantly `0`. -/
theorem brg_index_correct :
    (∀ g, 1 ≤ g → g ≤ 63 →
      (∀ i, i < 2 ^ g → brg_index i g = bit_reverse_spec g i) ∧
      brg_index 0 g = 0 ∧
      brg_index (2 ^ g - 1) g = 2 ^ g - 1) ∧
    (∀ i, brg_index i 0 = 0) := by
  refine ⟨fun g h1 h2 => ⟨fun i _ => brg_index_eq_spec g h1 h2 i, ?_, ?_⟩,
    fun i => by simp [brg_index]⟩
  · rw [brg_index_eq_spec g h1 h2, bit_reverse_spec_zero]
  · rw [brg_index_eq_spec g h1 h2, bit_reverse_spec_ones]

/-- C7, witness: the theorem applied at `g = 3` with `i = 5` (the 3-bit
reversal of `101₂` is `101₂ = 5`), plus the boundary values. -/
theorem brg_index_correct_witness :
    brg_index 5 3 = bit_reverse_spec 3 5 ∧ brg_index 0 3 = 0 ∧
      brg_index (2 ^ 3 - 1) 3 = 2 ^ 3 - 1 ∧ brg_index 9 0 = 0 :=
  ⟨(brg_index_correct.1 3 (by norm_num) (by norm_num)).1 5 (by norm_num),
   (brg_index_correct.1 3 (by norm_num) (by norm_num)).2.1,
   (brg_index_correct.1 3 (by norm_num) (by norm_num)).2.2,
   brg_index_correct.2 9⟩

/-- `g` only modifies the working vector `v`. -/
theorem blake2b1_g_r (s : Blake2b1) (m1 m2 a b cc d : Nat) :
    (Blake2b1.g s m1 m2 a b cc d).r = s.r := rfl

/-- `init_v` only modifies the working vector `v`. -/
theorem blake2b1_init_v_r (s : Blake2b1) : (Blake2b1.init_v s).r = s.r := rfl

/-- `compress` does not touch the round counter. -/
theorem blake2b1_compress_r (s : Blake2b1) (msg : List Nat) :
    (Blake2b1.compress s msg).r = s.r := by
  simp only [Blake2b1.compress, blake2b1_g_r, blake2b1_init_v_r]

/-- A `hash` call advances the round counter by one, mod 12. -/
theorem blake2b1_hash_r (s : Blake2b1) (x : List Nat) :
    ((Blake2b1.hash s x).1).r = (s.r + 1) % 12 := by
  simp only [Blake2b1.hash, Blake2b1.increase_r, blake2b1_compress_r]

/-- C8.  The Blake2b-1 round counter is a state machine on `r ∈ {0,…,11}`:
every `hash()` call advances `r` to `(r + 1) % 12`, `reset()` forces `r`
to `0`, `set_r(r0)` stores `r0 % 12`; consequently `r` stays in
`{0,…,11}` under every sequence of operations, and 15 consecutive
`increase_r` calls starting from a reset state leave `r = 3`. -/
theorem blake2b1_round_counter :
    (∀ (s : Blake2b1) (x : List Nat),
      ((Blake2b1.hash s x).1).r = (s.r + 1) % 12) ∧
    (∀ s : Blake2b1, (Blake2b1.reset s).r = 0) ∧
    (∀ (s : Blake2b1) (r0 : Nat), (Blake2b1.set_r s r0).r = r0 % 12) ∧
    (∀ (s : Blake2b1) (ops : List B1Op), s.r < 12 →
      (run_ops s ops).r < 12) ∧
    (∀ s : Blake2b1,
      (run_ops (Blake2b1.reset s) (List.replicate 15 B1Op.opincr)).r = 3) := by
  refine ⟨blake2b1_hash_r, fun s => rfl, fun s r0 => rfl, ?_, ?_⟩
  swap
  · intro s
    have hreset : Blake2b1.reset s =
        ⟨0, [BLAKE2B_IV0, BLAKE2B_IV.getD 1 0, BLAKE2B_IV.getD 2 0,
          BLAKE2B_IV.getD 3 0, BLAKE2B_IV.getD 4 0, BLAKE2B_IV.getD 5 0,
          BLAKE2B_IV.getD 6 0, BLAKE2B_IV.getD 7 0],
          List.replicate 16 0, 0, 0⟩ := rfl
    rw [hreset]
    decide
  intro s ops
  induction ops generalizing s with
  | nil => intro hs; exact hs
  | cons op rest ih =>
    intro hs
    refine ih (B1Op.apply s op) ?_
    cases op with
    | ophash x =>
      show ((Blake2b1.hash s x).1).r < 12
      rw [blake2b1_hash_r]
      exact Nat.mod_lt _ (by norm_num)
    | opreset => norm_num [B1Op.apply, Blake2b1.reset, Blake2b1.init]
    | opsetr r0 => exact Nat.mod_lt _ (by norm_num)
    | opincr => exact Nat.mod_lt _ (by norm_num)

/-- C8, witness: the invariant applied to a concrete state with `r = 5`
and a concrete operation sequence. -/
theorem blake2b1_round_counter_witness :
    (run_ops ⟨5, [], [], 0, 0⟩
      [B1Op.opsetr 26, B1Op.ophash [], B1Op.opincr, B1Op.opreset]).r < 12 :=
  blake2b1_round_counter.2.2.2.1 ⟨5, [], [], 0, 0⟩
    [B1Op.opsetr 26, B1Op.ophash [], B1Op.opincr, B1Op.opreset] (by decide)

set_option maxRecDepth 100000 in
theorem pow_mask_canonical_fin : ∀ p : Fin 56, 1 ≤ p.val →
    strip_zeros (u64_to_be_bytes
        ((2 ^ (8 * (p.val / 8 + 1)) - 2 ^ p.val) % 2 ^ 64)) =
      (256 - 2 ^ (p.val % 8)) :: List.replicate (p.val / 8) 0 := by decide


/-- Lift of the per-`p` mask computation: for `1 ≤ p < 56` the stripped
big-endian mask is one partial byte `256 - 2^(p % 8)` followed by
`p / 8` zero bytes. -/
theorem pow_mask_canonical (p : Nat) (h1 : 1 ≤ p) (h2 : p < 56) :
    strip_zeros (u64_to_be_bytes
        ((2 ^ (8 * (p / 8 + 1)) - 2 ^ p) % 2 ^ 64)) =
      (256 - 2 ^ (p % 8)) :: List.replicate (p / 8) 0 :=
  pow_mask_canonical_fin ⟨p, h2⟩ h1

set_option maxRecDepth 100000 in
theorem and_clear_low_fin : ∀ (c : Fin 9) (b : Fin 256),
    (256 - 2 ^ c.val) &&& b.val = b.val / 2 ^ c.val * 2 ^ c.val := by decide

theorem zipWith_and_replicate_zero : ∀ (q : Nat) (rest : List Nat),
    rest.length = q →
    List.zipWith (fun mb sb => mb &&& sb) (List.replicate q 0) rest =
      List.replicate q 0 := by
  intro q
  induction q with
  | zero =>
    intro rest h
    rw [List.length_eq_zero] at h
    subst h
    rfl
  | succ q ih =>
    intro rest h
    cases rest with
    | nil => simp at h
    | cons b bs =>
      simp only [List.replicate_succ, List.zipWith_cons_cons, Nat.zero_and]
      rw [ih bs (by simpa using h)]

theorem be_val_append (A B : List Nat) :
    be_val (A ++ B) = be_val A * 2 ^ (8 * B.length) + be_val B := by
  induction A with
  | nil => simp [be_val]
  | cons b A ih =>
    show b * 2 ^ (8 * (A ++ B).length) + be_val (A ++ B) =
      (b * 2 ^ (8 * A.length) + be_val A) * 2 ^ (8 * B.length) + be_val B
    rw [ih, List.length_append,
      show 8 * (A.length + B.length) = 8 * A.length + 8 * B.length by ring,
      pow_add]
    ring

theorem be_val_replicate_zero (q : Nat) :
    be_val (List.replicate q 0) = 0 := by
  induction q with
  | zero => rfl
  | succ q ih => simp [List.replicate_succ, be_val, ih]

theorem be_val_lt : ∀ A : List Nat, (∀ b ∈ A, b < 256) →
    be_val A < 2 ^ (8 * A.length) := by
  intro A
  induction A with
  | nil => intro _; simp [be_val]
  | cons b rest ih =>
    intro h
    have hb : b < 256 := h b (by simp)
    have hr := ih (fun x hx => h x (by simp [hx]))
    simp only [be_val, List.length_cons]
    rw [show 8 * (rest.length + 1) = 8 * rest.length + 8 by ring, pow_add]
    calc b * 2 ^ (8 * rest.length) + be_val rest <
        b * 2 ^ (8 * rest.length) + 2 ^ (8 * rest.length) := by omega
      _ = (b + 1) * 2 ^ (8 * rest.length) := by ring
      _ ≤ 256 * 2 ^ (8 * rest.length) := Nat.mul_le_mul_right _ (by omega)
      _ = 2 ^ (8 * rest.length) * 2 ^ 8 := by ring

theorem and_clear_low (c b : Nat) (hc : c ≤ 8) (hb : b < 256) :
    (256 - 2 ^ c) &&& b = b / 2 ^ c * 2 ^ c :=
  and_clear_low_fin ⟨c, by omega⟩ ⟨b, hb⟩

theorem pow_mask_loop_eq (salt mask : List Nat)
    (h : mask.length ≤ salt.length) :
    pow_mask_loop salt mask =
      salt.take (salt.length - mask.length) ++
        List.zipWith (fun mb sb => mb &&& sb) mask
          (salt.drop (salt.length - mask.length)) := by
  have aux : ∀ cnt, cnt ≤ mask.length →
      (List.range cnt).foldl
        (fun sacc i =>
          sacc.set (salt.length - (i + 1))
            ((mask.getD (mask.length - (i + 1)) 0) &&&
              (sacc.getD (salt.length - (i + 1)) 0))) salt =
        salt.take (salt.length - cnt) ++
          List.zipWith (fun mb sb => mb &&& sb)
            (mask.drop (mask.length - cnt))
            (salt.drop (salt.length - cnt)) := by
    intro cnt
    induction cnt with
    | zero => intro _; simp
    | succ cnt ih =>
      intro hcnt
      rw [List.range_succ, List.foldl_append, ih (by omega)]
      simp only [List.foldl_cons, List.foldl_nil]
      have hidx2 : salt.length - (cnt + 1) < salt.length := by omega
      have hmidx : mask.length - (cnt + 1) < mask.length := by omega
      have hlenA : (salt.take (salt.length - cnt)).length =
          salt.length - cnt := by
        rw [List.length_take]; omega
      have hidx : salt.length - (cnt + 1) <
          (salt.take (salt.length - cnt)).length := by omega
      -- the value read back is the original salt byte
      have hget : (salt.take (salt.length - cnt) ++
            List.zipWith (fun mb sb => mb &&& sb)
              (mask.drop (mask.length - cnt))
              (salt.drop (salt.length - cnt))).getD
            (salt.length - (cnt + 1)) 0 =
          salt.getD (salt.length - (cnt + 1)) 0 := by
        rw [List.getD_append _ _ _ _ hidx]
        simp [List.getD_eq_getElem?_getD, List.getElem?_take,
          List.getElem?_eq_getElem, hidx2,
          show salt.length - (cnt + 1) < salt.length - cnt by omega]
      rw [List.set_append_left _ _ hidx, hget]
      -- split the take at its last element and set it
      have htake : salt.take (salt.length - cnt) =
          salt.take (salt.length - (cnt + 1)) ++
            [salt.get ⟨salt.length - (cnt + 1), hidx2⟩] := by
        rw [show salt.length - cnt = (salt.length - (cnt + 1)) + 1 by omega]
        exact (List.take_concat_get' salt _ hidx2).symm
      have hlenB : (salt.take (salt.length - (cnt + 1))).length =
          salt.length - (cnt + 1) := by
        rw [List.length_take]; omega
      rw [htake, List.set_append_right _ _ (by omega), hlenB, Nat.sub_self]
      rw [show ([salt.get ⟨salt.length - (cnt + 1), hidx2⟩].set 0
          ((mask.getD (mask.length - (cnt + 1)) 0) &&&
            (salt.getD (salt.length - (cnt + 1)) 0))) =
          [(mask.getD (mask.length - (cnt + 1)) 0) &&&
            (salt.getD (salt.length - (cnt + 1)) 0)] from rfl]
      rw [List.append_assoc]
      congr 1
      -- now show [v] ++ zip-old = zip-new
      have em : mask.length - cnt = (mask.length - (cnt + 1)) + 1 := by omega
      have es : salt.length - cnt = (salt.length - (cnt + 1)) + 1 := by omega
      have hdropm : mask.drop (mask.length - (cnt + 1)) =
          mask.get ⟨mask.length - (cnt + 1), hmidx⟩ ::
            mask.drop (mask.length - cnt) := by
        rw [em]
        exact List.drop_eq_getElem_cons hmidx
      have hdrops : salt.drop (salt.length - (cnt + 1)) =
          salt.get ⟨salt.length - (cnt + 1), hidx2⟩ ::
            salt.drop (salt.length - cnt) := by
        rw [es]
        exact List.drop_eq_getElem_cons hidx2
      rw [hdropm, hdrops, List.zipWith_cons_cons]
      have hvm : mask.getD (mask.length - (cnt + 1)) 0 =
          mask.get ⟨mask.length - (cnt + 1), hmidx⟩ := by
        simp [List.getD_eq_getElem?_getD, List.getElem?_eq_getElem, hmidx]
      have hvs : salt.getD (salt.length - (cnt + 1)) 0 =
          salt.get ⟨salt.length - (cnt + 1), hidx2⟩ := by
        simp [List.getD_eq_getElem?_getD, List.getElem?_eq_getElem, hidx2]
      rw [hvm, hvs]
      rfl
  have hfin := aux mask.length (Nat.le_refl _)
  rw [pow_mask_loop, hfin, Nat.sub_self, List.drop_zero]

theorem div_pow_split (X T a p : Nat) (hp : p ≤ a) :
    (X * 2 ^ a + T) / 2 ^ p * 2 ^ p = X * 2 ^ a + T / 2 ^ p * 2 ^ p := by
  have e0 : (2 : Nat) ^ a = 2 ^ (a - p) * 2 ^ p := by
    rw [← pow_add]
    congr 1
    omega
  have e1 : X * 2 ^ a + T = T + (X * 2 ^ (a - p)) * 2 ^ p := by
    rw [e0]; ring
  rw [e1, Nat.add_mul_div_right _ _ (Nat.pos_pow_of_pos p (by norm_num)),
    Nat.add_mul, e0]
  ring

theorem tail_div (th R q r : Nat) (hR : R < 2 ^ (8 * q)) :
    (th * 2 ^ (8 * q) + R) / 2 ^ (8 * q + r) * 2 ^ (8 * q + r) =
      (th / 2 ^ r * 2 ^ r) * 2 ^ (8 * q) := by
  have h1 : (th * 2 ^ (8 * q) + R) / 2 ^ (8 * q) = th := by
    rw [Nat.mul_comm th,
      Nat.mul_add_div (Nat.pos_pow_of_pos (8 * q) (by norm_num)),
      Nat.div_eq_of_lt hR, Nat.add_zero]
  rw [pow_add, ← Nat.div_div_eq_div_mul, h1]
  ring

theorem pow_mask_loop_canonical (salt : List Nat) (p : Nat)
    (hp1 : 1 ≤ p) (hp56 : p < 56) (hbytes : ∀ b ∈ salt, b < 256)
    (hlen : p / 8 + 1 ≤ salt.length) :
    (pow_mask_loop salt
        ((256 - 2 ^ (p % 8)) :: List.replicate (p / 8) 0)).length =
      salt.length ∧
    be_val (pow_mask_loop salt
        ((256 - 2 ^ (p % 8)) :: List.replicate (p / 8) 0)) =
      be_val salt / 2 ^ p * 2 ^ p := by
  have hqr : 8 * (p / 8) + p % 8 = p := Nat.div_add_mod p 8
  have hr8 : p % 8 < 8 := Nat.mod_lt p (by norm_num)
  set q := p / 8 with hq
  set r := p % 8 with hrdef
  have hmlen : ((256 - 2 ^ r) :: List.replicate q 0).length = q + 1 := by
    simp
  have hms : ((256 - 2 ^ r) :: List.replicate q 0).length ≤ salt.length := by
    omega
  rw [pow_mask_loop_eq salt _ hms, hmlen]
  have hAlen : (salt.take (salt.length - (q + 1))).length =
      salt.length - (q + 1) := by
    rw [List.length_take]; omega
  have htlen : (salt.drop (salt.length - (q + 1))).length = q + 1 := by
    rw [List.length_drop]; omega
  rcases htail : salt.drop (salt.length - (q + 1)) with _ | ⟨th, tr⟩
  · rw [htail] at htlen
    simp at htlen
  · rw [htail] at htlen
    have htr : tr.length = q := by
      simp at htlen
      omega
    rw [List.zipWith_cons_cons, zipWith_and_replicate_zero q tr htr]
    have hthmem : th ∈ salt := by
      refine List.mem_of_mem_drop (n := salt.length - (q + 1)) ?_
      rw [htail]
      exact List.mem_cons_self th tr
    have hth256 : th < 256 := hbytes th hthmem
    have hclear : (256 - 2 ^ r) &&& th = th / 2 ^ r * 2 ^ r :=
      and_clear_low r th (by omega) hth256
    have hsplit : salt.take (salt.length - (q + 1)) ++
        salt.drop (salt.length - (q + 1)) = salt :=
      List.take_append_drop _ _
    have hRlt : be_val tr < 2 ^ (8 * q) := by
      have hmem : ∀ b ∈ tr, b < 256 := by
        intro b hb
        refine hbytes b (List.mem_of_mem_drop (n := salt.length - (q + 1)) ?_)
        rw [htail]
        exact List.mem_cons_of_mem th hb
      have := be_val_lt tr hmem
      rwa [htr] at this
    have hsval : be_val salt =
        be_val (salt.take (salt.length - (q + 1))) * 2 ^ (8 * (q + 1)) +
          (th * 2 ^ (8 * q) + be_val tr) := by
      conv_lhs => rw [← hsplit]
      rw [be_val_append, htail]
      simp [be_val, htr, List.length_cons]
    constructor
    · rw [List.length_append, hAlen]
      simp
      omega
    · rw [be_val_append, hsval,
        div_pow_split _ _ _ _ (by omega : p ≤ 8 * (q + 1))]
      have htd : (th * 2 ^ (8 * q) + be_val tr) / 2 ^ p * 2 ^ p =
          (th / 2 ^ r * 2 ^ r) * 2 ^ (8 * q) := by
        rw [show p = 8 * q + r by omega]
        exact tail_div th (be_val tr) q r hRlt
      rw [htd]
      simp [be_val, be_val_replicate_zero, hclear]

/-- C10.  In `proof_of_work_server` with `mode = 0` (salt mode), the mask
computation `(1 << (8*((p/8)+1))) - (1 << p)` runs on `u64` values, and
both shift amounts stay below 64 exactly when `p < 56` (the first one
reaches 64 for every `p ≥ 56`).  For every `p` in `1..56` and every salt
(of byte values) of length at least the stripped mask length `p/8 + 1`,
salt mode completes and returns a tuple whose salt component has the same
length as the salt and whose big-endian value is the salt's value with its
`p` lowest bits masked to zero. -/
theorem pow_salt_mode_masks_low_bits :
    (∀ p : Nat, (pow_shift_amount p < 64 ∧ p < 64) ↔ p < 56) ∧
    (∀ (σ : Type) (c : Catena σ) (s : σ)
      (pwd salt associated_data gamma : List Nat) (output_len p : Nat),
      1 ≤ p → p < 56 → (∀ b ∈ salt, b < 256) → p / 8 + 1 ≤ salt.length →
      ∃ t, c.proof_of_work_server s pwd salt associated_data gamma
          output_len p 0 = Except.ok t ∧
        t.1 = pwd ∧ t.2.1.length = salt.length ∧
        be_val t.2.1 = be_val salt / 2 ^ p * 2 ^ p) := by
  constructor
  · intro p
    simp only [pow_shift_amount]
    omega
  · intro σ c s pwd salt associated_data gamma output_len p hp1 hp56 hbytes
      hlen
    have hmask := pow_mask_canonical p hp1 hp56
    have hmain := pow_mask_loop_canonical salt p hp1 hp56 hbytes hlen
    have hser : c.proof_of_work_server s pwd salt associated_data gamma
        output_len p 0 =
        Except.ok (pwd, pow_mask_loop salt (strip_zeros (u64_to_be_bytes
          ((2 ^ (8 * (p / 8 + 1)) - 2 ^ p) % 2 ^ 64))), associated_data,
          gamma, output_len,
          (c.catena s pwd (c.compute_tweak Domain.proofOfWork output_len
            salt.length associated_data) salt c.g_low c.g_high output_len
            gamma).2, p, 0) := by
      simp [Catena.proof_of_work_server]
    rw [hser]
    exact ⟨_, rfl, rfl, by rw [hmask]; exact hmain.1,
      by rw [hmask]; exact hmain.2⟩

/-- C10, witness: the theorem applied to the concrete instance `toyCatena`
with `p = 3` and salt `[0xFF, 0xFF]` (value `65535`; the masked value is
`65528 = 65535 / 8 * 8`). -/
theorem pow_salt_mode_masks_low_bits_witness :
    ∃ t, toyCatena.proof_of_work_server 0 [9] [255, 255] [] [] 1 3 0 =
        Except.ok t ∧
      t.1 = [9] ∧ t.2.1.length = ([255, 255] : List Nat).length ∧
      be_val t.2.1 = be_val [255, 255] / 2 ^ 3 * 2 ^ 3 :=
  pow_salt_mode_masks_low_bits.2 Nat toyCatena 0 [9] [255, 255] [] [] 1 3
    (by norm_num) (by norm_num) (by decide) (by norm_num)
